import Mathlib

/-! A shallow embedding of the pystiche multi-layer encoder
(src/pystiche/enc/multi_layer_encoder.py) and of the cycle batch samplers
(src/pystiche/image/data/sampler.py), with proofs about their behaviour.

Tensors are opaque values of a type parameter, a stage is a partial function
on tensors (failure models a raised exception), the tensor key derivation is
an external collaborator passed in as a function, and the persistent cache is
an association list with dict semantics. -/

namespace Pystiche

/-- Errors the encoder operations can raise: an unknown layer name
(Python ValueError from verify), indexing an empty ordered result,
a missing dict key, a stage raising, and a guide propagation failure
carrying the collaborator error unchanged. -/
inductive MLEError where
  | unknownLayer (name : String)
  | indexError
  | keyError
  | stageFailure (name : String)
  | guideFailure (err : String)
deriving DecidableEq

/-- A stage maps a tensor to a tensor and may fail. -/
abbrev Stage (α : Type) : Type := α → Option α

/-- State of a MultiLayerEncoder: the ordered named modules, the registered
layers, and the persistent activation cache keyed by (layer name, tensor key). -/
structure MLE (α κ : Type) where
  modules : List (String × Stage α)
  registeredLayers : List String
  cache : List ((String × κ) × α)

/-- Association-list lookup with dict semantics. -/
def dictGet? {β γ : Type} [DecidableEq β] : List (β × γ) → β → Option γ
  | [], _ => none
  | (k', v) :: rest, k => if k = k' then some v else dictGet? rest k

/-- Association-list insert-or-replace, mirroring Python dict assignment. -/
def dictInsert {β γ : Type} [DecidableEq β] : List (β × γ) → β → γ → List (β × γ)
  | [], k, v => [(k, v)]
  | (k', v') :: rest, k, v =>
    if k = k' then (k, v) :: rest else (k', v') :: dictInsert rest k v

/-- Mirrors Python dict.update: entries of the second dict overwrite the first. -/
def dictUpdate {β γ : Type} [DecidableEq β] (d₁ d₂ : List (β × γ)) : List (β × γ) :=
  d₂.foldl (fun acc p => dictInsert acc p.1 p.2) d₁

/-- Builds a dict from a list of pairs, later pairs overwriting earlier ones,
mirroring the Python dict constructor on a list of pairs. -/
def dictOfList {β γ : Type} [DecidableEq β] (ps : List (β × γ)) : List (β × γ) :=
  ps.foldl (fun acc p => dictInsert acc p.1 p.2) []

/-- Looks up every key in order; fails if any key is missing (Python KeyError). -/
def getEach {β γ : Type} [DecidableEq β] (d : List (β × γ)) : List β → Option (List γ)
  | [] => some []
  | k :: ks =>
    match dictGet? d k with
    | none => none
    | some v =>
      match getEach d ks with
      | none => none
      | some vs => some (v :: vs)

/-- Index of the first occurrence of a name, mirroring Python list.index. -/
def idxOf : List String → String → Nat
  | [], _ => 0
  | n :: ns, x => if n = x then 0 else idxOf ns x + 1

/-- The ordered names of the encoder stages (MultiLayerEncoder.children_names). -/
def childrenNames {α κ : Type} (e : MLE α κ) : List String :=
  e.modules.map Prod.fst

/-- MultiLayerEncoder.extract_deepest_layer: verify every name, then return the
requested name occurring latest in the container order; empty input indexes an
empty list (Python IndexError). -/
def extractDeepestLayer {α κ : Type} (e : MLE α κ) (layers : List String) :
    Except MLEError String :=
  match layers.find? (fun l => !(decide (l ∈ childrenNames e))) with
  | some l => .error (.unknownLayer l)
  | none =>
    match layers with
    | [] => .error .indexError
    | l₀ :: rest =>
      .ok (rest.foldl (fun acc l =>
        if idxOf (childrenNames e) acc < idxOf (childrenNames e) l then l else acc) l₀)

/-- MultiLayerEncoder.named_children_to: the stages strictly before the given
layer, plus the layer itself when includeLast. -/
def namedChildrenTo {α κ : Type} (e : MLE α κ) (layer : String) (includeLast : Bool) :
    Except MLEError (List (String × Stage α)) :=
  if layer ∈ childrenNames e then
    .ok (e.modules.take
      (if includeLast then idxOf (childrenNames e) layer + 1
       else idxOf (childrenNames e) layer))
  else .error (.unknownLayer layer)

/-- MultiLayerEncoder.named_children_from: the stages at and after the given
layer, minus the layer itself when includeFirst is false. -/
def namedChildrenFrom {α κ : Type} (e : MLE α κ) (layer : String) (includeFirst : Bool) :
    Except MLEError (List (String × Stage α)) :=
  if layer ∈ childrenNames e then
    .ok (e.modules.drop
      (if includeFirst then idxOf (childrenNames e) layer
       else idxOf (childrenNames e) layer + 1))
  else .error (.unknownLayer layer)

/-- The layer names stored in the cache for the given tensor key
(the stored_layers comprehension in MultiLayerEncoder.forward). -/
def storedLayersOf {α κ : Type} [DecidableEq κ]
    (cache : List ((String × κ) × α)) (key : κ) : List String :=
  cache.filterMap (fun p => if p.1.2 = key then some p.1.1 else none)

/-- The requested layers not cached for the given key
(the diff_layers set difference in MultiLayerEncoder.forward). -/
def diffLayersOf {α κ : Type} [DecidableEq κ] (e : MLE α κ) (key : κ)
    (layers : List String) : List String :=
  layers.filter (fun l => !(decide (l ∈ storedLayersOf e.cache key)))

/-- The stage-running loop of MultiLayerEncoder.forward: thread the input
through each stage in order, writing every output into the working storage
keyed by (stage name, tensor key); returns the final storage and the trace of
stages that ran to completion. -/
def runStages {α κ : Type} [DecidableEq κ] (key : κ) :
    List (String × Stage α) → α → List ((String × κ) × α) →
    Except MLEError (List ((String × κ) × α)) × List String
  | [], _, st => (.ok st, [])
  | (n, m) :: ss, x, st =>
    match m x with
    | none => (.error (.stageFailure n), [])
    | some y =>
      let r := runStages key ss y (dictInsert st (n, key) y)
      (r.1, n :: r.2)

/-- MultiLayerEncoder.forward: look up the requested layers in a working copy
of the cache; if any is missing, run the container stages from the start
through the deepest missing layer, retaining every intermediate output; when
store is set, merge the working storage into the persistent cache; return the
requested activations in request order, together with the resulting encoder
state and the trace of stages that ran. -/
def forward {α κ : Type} [DecidableEq κ] (tkey : α → κ) (e : MLE α κ)
    (input : α) (layers : List String) (store : Bool) :
    Except MLEError (List α) × MLE α κ × List String :=
  match diffLayersOf e (tkey input) layers with
  | [] =>
    match getEach e.cache (layers.map (fun l => (l, tkey input))) with
    | some vs => (.ok vs, e, [])
    | none => (.error .keyError, e, [])
  | d :: ds =>
    match extractDeepestLayer e (d :: ds) with
    | .error err => (.error err, e, [])
    | .ok deepest =>
      match namedChildrenTo e deepest true with
      | .error err => (.error err, e, [])
      | .ok stages =>
        match runStages (tkey input) stages input e.cache with
        | (.error err, tr) => (.error err, e, tr)
        | (.ok storage, tr) =>
          match getEach storage (layers.map (fun l => (l, tkey input))) with
          | some vs =>
            (.ok vs,
             if store then MLE.mk e.modules e.registeredLayers (dictUpdate e.cache storage)
             else e,
             tr)
          | none =>
            (.error .keyError,
             if store then MLE.mk e.modules e.registeredLayers (dictUpdate e.cache storage)
             else e,
             tr)

/-- MultiLayerEncoder.encode: a no-op when no layer is registered; otherwise
run forward over the registered layers with store, then replace the whole
persistent cache with exactly the registered entries for this input key. -/
def encode {α κ : Type} [DecidableEq κ] (tkey : α → κ) (e : MLE α κ) (input : α) :
    Except MLEError Unit × MLE α κ :=
  match e.registeredLayers with
  | [] => (.ok (), e)
  | _ :: _ =>
    match forward tkey e input e.registeredLayers true with
    | (.ok encs, e', _) =>
      (.ok (), MLE.mk e'.modules e'.registeredLayers
        (dictOfList ((e.registeredLayers.map (fun l => (l, tkey input))).zip encs)))
    | (.error err, e', _) => (.error err, e')

/-- MultiLayerEncoder.clear_cache. -/
def clearCache {α κ : Type} (e : MLE α κ) : MLE α κ :=
  MLE.mk e.modules e.registeredLayers []

/-- Deletion of the entry with the given name from an ordered module dict. -/
def removeFirst {γ : Type} : List (String × γ) → String → List (String × γ)
  | [], _ => []
  | p :: ps, n => if p.1 = n then ps else p :: removeFirst ps n

/-- MultiLayerEncoder.trim: with no argument use the registered layers; find
the deepest needed layer and delete every stage strictly after it. -/
def trim {α κ : Type} (e : MLE α κ) (layersOpt : Option (List String)) :
    Except MLEError Unit × MLE α κ :=
  match extractDeepestLayer e (layersOpt.getD e.registeredLayers) with
  | .error err => (.error err, e)
  | .ok deepest =>
    match namedChildrenFrom e deepest false with
    | .error err => (.error err, e)
    | .ok tail =>
      (.ok (), MLE.mk (tail.foldl (fun ms p => removeFirst ms p.1) e.modules)
        e.registeredLayers e.cache)

/-- The guide-propagation loop of MultiLayerEncoder.propagate_guide: apply the
external collaborator to the running guide at each stage in order, retaining
every intermediate guide; a collaborator failure is surfaced with its error
unchanged. -/
def runGuides {α γ : Type} (prop : Stage α → γ → String → Bool → Except String γ)
    (method : String) (allowEmpty : Bool) :
    List (String × Stage α) → γ → List (String × γ) →
    Except MLEError (List (String × γ))
  | [], _, acc => .ok acc
  | (n, m) :: ss, g, acc =>
    match prop m g method allowEmpty with
    | .error err => .error (.guideFailure err)
    | .ok g' => runGuides prop method allowEmpty ss g' (dictInsert acc n g')

/-- MultiLayerEncoder.propagate_guide: run the stages from the start through
the deepest requested layer, propagating the guide through each via the
external collaborator, and return the guides for the requested layers in
request order. -/
def propagateGuideMLE {α κ γ : Type}
    (prop : Stage α → γ → String → Bool → Except String γ) (e : MLE α κ)
    (guide : γ) (layers : List String) (method : String) (allowEmpty : Bool) :
    Except MLEError (List γ) :=
  match extractDeepestLayer e layers with
  | .error err => .error err
  | .ok deepest =>
    match namedChildrenTo e deepest true with
    | .error err => .error err
    | .ok stages =>
      match runGuides prop method allowEmpty stages guide [] with
      | .error err => .error err
      | .ok guides =>
        match getEach guides layers with
        | some gs => .ok gs
        | none => .error .keyError

/-- The stages of a module list up to and including the named one. -/
def takeTo {γ : Type} (name : String) : List (String × γ) → List (String × γ)
  | [] => []
  | p :: ps => if p.1 = name then [p] else p :: takeTo name ps

/-- Threads a tensor through a list of stages in order. -/
def chainRun {α : Type} : List (String × Stage α) → α → Option α
  | [], x => some x
  | (_, m) :: ss, x =>
    match m x with
    | none => none
    | some y => chainRun ss y

/-- The activation the encoder produces at a layer for an input: the input
threaded through the stages up to and including that layer. -/
def activationAt {α κ : Type} (e : MLE α κ) (x : α) (layer : String) : Option α :=
  chainRun (takeTo layer e.modules) x

/-- Threads a guide through a list of stages via the external collaborator. -/
def guideChain {α γ : Type} (prop : Stage α → γ → String → Bool → Except String γ)
    (method : String) (allowEmpty : Bool) :
    List (String × Stage α) → γ → Except String γ
  | [], g => .ok g
  | (_, m) :: ss, g =>
    match prop m g method allowEmpty with
    | .error err => .error err
    | .ok g' => guideChain prop method allowEmpty ss g'

/-- InfiniteCycleBatchSampler state: the dataset size and the batch size. -/
structure InfiniteCycleBatchSampler where
  size : Nat
  batchSize : Nat
deriving DecidableEq

/-- InfiniteCycleBatchSampler construction, which performs no validation of
its arguments and never fails. -/
def icbsMake (size batchSize : Nat) : Except String InfiniteCycleBatchSampler :=
  .ok (InfiniteCycleBatchSampler.mk size batchSize)

/-- len of the infinite sampler reports -1. -/
def InfiniteCycleBatchSampler.length (_ : InfiniteCycleBatchSampler) : Int := -1

/-- Draws n elements from the cycle over range size at cycle position pos;
fails when the range is empty and an element is requested (the nextn generator
exhausting the empty cycle). -/
def nextn (size pos n : Nat) : Option (List Nat) :=
  if size = 0 then (if n = 0 then some [] else none)
  else some ((List.range n).map (fun j => (pos + j) % size))

/-- The k-th batch the infinite sampler produces, starting from cycle
position pos. -/
def icbsBatchFrom (s : InfiniteCycleBatchSampler) : Nat → Nat → Option (List Nat)
  | pos, 0 => nextn s.size pos s.batchSize
  | pos, k + 1 => icbsBatchFrom s (pos + s.batchSize) k

/-- The k-th batch produced by iterating the infinite sampler from a fresh
iterator: the cycle position continues across batch boundaries. -/
def InfiniteCycleBatchSampler.batch (s : InfiniteCycleBatchSampler) (k : Nat) :
    Option (List Nat) :=
  icbsBatchFrom s 0 k

/-- FiniteCycleBatchSampler state. -/
structure FiniteCycleBatchSampler where
  size : Nat
  batchSize : Nat
  numBatches : Nat
deriving DecidableEq

/-- FiniteCycleBatchSampler construction, which performs no validation. -/
def fcbsMake (size numBatches batchSize : Nat) : Except String FiniteCycleBatchSampler :=
  .ok (FiniteCycleBatchSampler.mk size batchSize numBatches)

/-- The infinite sampler underlying a finite one. -/
def FiniteCycleBatchSampler.toInfinite (s : FiniteCycleBatchSampler) :
    InfiniteCycleBatchSampler :=
  InfiniteCycleBatchSampler.mk s.size s.batchSize

/-- Collects n successive batches of the infinite sampler starting at batch
index k. -/
def collectBatches (s : InfiniteCycleBatchSampler) : Nat → Nat → Option (List (List Nat))
  | _, 0 => some []
  | k, n + 1 =>
    match s.batch k with
    | none => none
    | some b =>
      match collectBatches s (k + 1) n with
      | none => none
      | some bs => some (b :: bs)

/-- All batches the finite sampler produces: exactly numBatches batches drawn
from a fresh infinite iterator. -/
def FiniteCycleBatchSampler.batches (s : FiniteCycleBatchSampler) :
    Option (List (List Nat)) :=
  collectBatches s.toInfinite 0 s.numBatches

/-- len of the finite sampler reports numBatches. -/
def FiniteCycleBatchSampler.length (s : FiniteCycleBatchSampler) : Int := s.numBatches

/-! Helper lemmas about the dict operations. -/

theorem dictGet?_insert_self {β γ : Type} [DecidableEq β] (d : List (β × γ)) (k : β) (v : γ) :
    dictGet? (dictInsert d k v) k = some v := by
  induction d with
  | nil => simp [dictInsert, dictGet?]
  | cons p rest ih =>
    obtain ⟨k', v'⟩ := p
    by_cases h : k = k'
    · simp [dictInsert, h, dictGet?]
    · simp [dictInsert, h, dictGet?, ih]

theorem dictGet?_insert_ne {β γ : Type} [DecidableEq β] (d : List (β × γ)) (k k' : β) (v : γ)
    (h : k ≠ k') : dictGet? (dictInsert d k' v) k = dictGet? d k := by
  induction d with
  | nil => simp [dictInsert, dictGet?, h]
  | cons p rest ih =>
    obtain ⟨k₀, v₀⟩ := p
    by_cases h0 : k' = k₀
    · subst h0
      simp [dictInsert, dictGet?, h]
    · by_cases h1 : k = k₀ <;> simp [dictInsert, dictGet?, h0, h1, ih]

theorem dictGet?_isSome_iff {β γ : Type} [DecidableEq β] (d : List (β × γ)) (k : β) :
    (dictGet? d k).isSome ↔ k ∈ d.map Prod.fst := by
  induction d with
  | nil => simp [dictGet?]
  | cons p rest ih =>
    obtain ⟨k₀, v₀⟩ := p
    by_cases h : k = k₀ <;> simp [dictGet?, h, ih]

theorem dictGet?_eq_none_of_not_mem {β γ : Type} [DecidableEq β] (d : List (β × γ)) (k : β)
    (h : k ∉ d.map Prod.fst) : dictGet? d k = none := by
  cases hv : dictGet? d k with
  | none => rfl
  | some v =>
    exact absurd ((dictGet?_isSome_iff d k).mp (by simp [hv])) h

theorem dictFoldl_insert_get {β γ : Type} [DecidableEq β] (ps : List (β × γ))
    (hnd : (ps.map Prod.fst).Nodup) (acc : List (β × γ)) (q : β) :
    dictGet? (ps.foldl (fun a p => dictInsert a p.1 p.2) acc) q =
      match dictGet? ps q with
      | some v => some v
      | none => dictGet? acc q := by
  induction ps generalizing acc with
  | nil => simp [dictGet?]
  | cons p rest ih =>
    obtain ⟨k₀, v₀⟩ := p
    simp only [List.map_cons, List.nodup_cons] at hnd
    simp only [List.foldl_cons]
    rw [ih hnd.2]
    by_cases h : q = k₀
    · subst h
      have : dictGet? rest q = none :=
        dictGet?_eq_none_of_not_mem rest q hnd.1
      simp [dictGet?, this, dictGet?_insert_self]
    · simp [dictGet?, h, dictGet?_insert_ne _ _ _ _ h]

theorem dictOfList_get {β γ : Type} [DecidableEq β] (ps : List (β × γ))
    (hnd : (ps.map Prod.fst).Nodup) (q : β) :
    dictGet? (dictOfList ps) q = dictGet? ps q := by
  rw [dictOfList, dictFoldl_insert_get ps hnd [] q]
  cases h : dictGet? ps q <;> simp [dictGet?]

theorem mem_storedLayersOf {α κ : Type} [DecidableEq κ]
    (cache : List ((String × κ) × α)) (key : κ) (l : String) :
    l ∈ storedLayersOf cache key ↔ (l, key) ∈ cache.map Prod.fst := by
  simp only [storedLayersOf, List.mem_filterMap, List.mem_map]
  constructor
  · rintro ⟨p, hp, hif⟩
    by_cases h : p.1.2 = key
    · have h1 : p.1.1 = l := by
        rw [if_pos h] at hif
        exact Option.some.inj hif
      exact ⟨p, hp, Prod.ext h1 h⟩
    · simp [h] at hif
  · rintro ⟨p, hp, hfst⟩
    refine ⟨p, hp, ?_⟩
    rw [show p.1.2 = key from by rw [hfst], if_pos rfl]
    simp [show p.1.1 = l from by rw [hfst]]

theorem getEach_of_forall_isSome {β γ : Type} [DecidableEq β] (d : List (β × γ))
    (ks : List β) (h : ∀ k ∈ ks, (dictGet? d k).isSome) :
    ∃ vs, getEach d ks = some vs ∧
      List.Forall₂ (fun k v => dictGet? d k = some v) ks vs := by
  induction ks with
  | nil => exact ⟨[], rfl, List.Forall₂.nil⟩
  | cons k ks ih =>
    obtain ⟨v, hv⟩ := Option.isSome_iff_exists.mp (h k (List.mem_cons_self k ks))
    obtain ⟨vs, hvs, hf⟩ := ih (fun k' hk' => h k' (List.mem_cons_of_mem k hk'))
    exact ⟨v :: vs, by simp [getEach, hv, hvs], List.Forall₂.cons hv hf⟩

/-! Helper lemmas about indices, prefixes and the deepest-layer fold. -/

theorem idxOf_mem_take (ns : List String) (x : String) (j : Nat)
    (hx : x ∈ ns) (hj : idxOf ns x < j) : x ∈ ns.take j := by
  induction ns generalizing j with
  | nil => cases hx
  | cons n ns ih =>
    cases j with
    | zero => cases hj
    | succ j' =>
      by_cases h : n = x
      · simp [h]
      · have hx' : x ∈ ns := by
          rcases List.mem_cons.mp hx with h' | h'
          · exact absurd h'.symm h
          · exact h'
        have hj' : idxOf ns x < j' := by
          simp only [idxOf, if_neg h] at hj
          omega
        simp only [List.take_succ_cons, List.mem_cons]
        exact Or.inr (ih j' hx' hj')

theorem idxOf_lt_of_mem_take (ns : List String) (x : String) (j : Nat)
    (hx : x ∈ ns.take j) : idxOf ns x < j := by
  induction ns generalizing j with
  | nil => simp at hx
  | cons n ns ih =>
    cases j with
    | zero => simp at hx
    | succ j' =>
      by_cases h : n = x
      · simp [idxOf, h]
      · simp only [List.take_succ_cons, List.mem_cons] at hx
        rcases hx with h' | h'
        · exact absurd h'.symm h
        · simp only [idxOf, if_neg h]
          exact Nat.succ_lt_succ (ih j' h')

theorem takeTo_eq_take {γ : Type} (ms : List (String × γ)) (x : String)
    (hx : x ∈ ms.map Prod.fst) :
    takeTo x ms = ms.take (idxOf (ms.map Prod.fst) x + 1) := by
  induction ms with
  | nil => simp at hx
  | cons p ps ih =>
    by_cases h : p.1 = x
    · simp [takeTo, h, idxOf]
    · have hx' : x ∈ ps.map Prod.fst := by
        simp only [List.map_cons, List.mem_cons] at hx
        rcases hx with h' | h'
        · exact absurd h'.symm h
        · exact h'
      simp [takeTo, h, idxOf, ih hx']

theorem takeTo_take {γ : Type} (ms : List (String × γ)) (x : String) (j : Nat)
    (hx : x ∈ (ms.take j).map Prod.fst) :
    takeTo x (ms.take j) = takeTo x ms := by
  induction ms generalizing j with
  | nil => simp at hx
  | cons p ps ih =>
    cases j with
    | zero => simp at hx
    | succ j' =>
      by_cases h : p.1 = x
      · simp [takeTo, h]
      · have hx' : x ∈ (ps.take j').map Prod.fst := by
          simp only [List.take_succ_cons, List.map_cons, List.mem_cons] at hx
          rcases hx with h' | h'
          · exact absurd h'.symm h
          · exact h'
        simp [takeTo, h, ih j' hx']

theorem foldl_deepest_spec (ns : List String) (ls : List String) (a : String) :
    (ls.foldl (fun acc l => if idxOf ns acc < idxOf ns l then l else acc) a) ∈ a :: ls ∧
    ∀ l ∈ a :: ls,
      idxOf ns l ≤
        idxOf ns (ls.foldl (fun acc l => if idxOf ns acc < idxOf ns l then l else acc) a) := by
  induction ls generalizing a with
  | nil => simp
  | cons b bs ih =>
    simp only [List.foldl_cons]
    obtain ⟨ihmem, ihle⟩ := ih (if idxOf ns a < idxOf ns b then b else a)
    constructor
    · rcases List.mem_cons.mp ihmem with h | h
      · rw [h]
        by_cases hab : idxOf ns a < idxOf ns b <;> simp [hab]
      · simp [List.mem_cons, h]
    · intro l hl
      rcases List.mem_cons.mp hl with rfl | hl'
      · refine le_trans ?_ (ihle _ (List.mem_cons_self _ _))
        by_cases hab : idxOf ns l < idxOf ns b <;> simp [hab]
        exact le_of_lt hab
      · rcases List.mem_cons.mp hl' with rfl | hl''
        · refine le_trans ?_ (ihle _ (List.mem_cons_self _ _))
          by_cases hab : idxOf ns a < idxOf ns l <;> simp [hab]
          omega
        · exact ihle l (List.mem_cons_of_mem _ hl'')

/-! Inversion and existence lemmas for extract_deepest_layer. -/

theorem extractDeepestLayer_inv {α κ : Type} (e : MLE α κ) (layers : List String)
    (dp : String) (h : extractDeepestLayer e layers = .ok dp) :
    (∀ l ∈ layers, l ∈ childrenNames e) ∧ dp ∈ layers ∧
      ∀ l ∈ layers, idxOf (childrenNames e) l ≤ idxOf (childrenNames e) dp := by
  unfold extractDeepestLayer at h
  cases hf : layers.find? (fun l => !(decide (l ∈ childrenNames e))) with
  | some l => rw [hf] at h; cases h
  | none =>
    rw [hf] at h
    have hall : ∀ l ∈ layers, l ∈ childrenNames e := by
      intro l hl
      have := List.find?_eq_none.mp hf l hl
      simpa using this
    cases layers with
    | nil => cases h
    | cons l₀ rest =>
      obtain ⟨hmem, hle⟩ := foldl_deepest_spec (childrenNames e) rest l₀
      refine ⟨hall, ?_, ?_⟩
      · injection h with h'
        rw [← h']
        exact hmem
      · injection h with h'
        rw [← h']
        exact hle

theorem extractDeepestLayer_ok {α κ : Type} (e : MLE α κ) (layers : List String)
    (hall : ∀ l ∈ layers, l ∈ childrenNames e) (hne : layers ≠ []) :
    ∃ dp, extractDeepestLayer e layers = .ok dp := by
  unfold extractDeepestLayer
  have hf : layers.find? (fun l => !(decide (l ∈ childrenNames e))) = none := by
    apply List.find?_eq_none.mpr
    intro l hl
    simp [hall l hl]
  rw [hf]
  cases layers with
  | nil => exact absurd rfl hne
  | cons l₀ rest => exact ⟨_, rfl⟩

theorem extractDeepestLayer_err {α κ : Type} (e : MLE α κ) (layers : List String)
    (l : String) (hl : l ∈ layers) (habs : l ∉ childrenNames e) :
    ∃ l', extractDeepestLayer e layers = .error (.unknownLayer l') ∧
      l' ∈ layers ∧ l' ∉ childrenNames e := by
  unfold extractDeepestLayer
  cases hf : layers.find? (fun l => !(decide (l ∈ childrenNames e))) with
  | none =>
    have := List.find?_eq_none.mp hf l hl
    simp [habs] at this
  | some l' =>
    refine ⟨l', rfl, List.mem_of_find?_eq_some hf, ?_⟩
    have := List.find?_some hf
    simpa using this

/-! Characterization of the stage-running loop. -/

theorem runStages_ok_of_isSome {α κ : Type} [DecidableEq κ] (key : κ)
    (ss : List (String × Stage α)) (x : α) (st : List ((String × κ) × α))
    (h : (chainRun ss x).isSome) :
    ∃ st', runStages key ss x st = (.ok st', ss.map Prod.fst) := by
  induction ss generalizing x st with
  | nil => exact ⟨st, rfl⟩
  | cons p ss ih =>
    obtain ⟨n, m⟩ := p
    cases hm : m x with
    | none => simp [chainRun, hm] at h
    | some y =>
      have h' : (chainRun ss y).isSome := by
        simpa [chainRun, hm] using h
      obtain ⟨st', hst'⟩ := ih y (dictInsert st (n, key) y) h'
      refine ⟨st', ?_⟩
      simp [runStages, hm, hst']

theorem runStages_char {α κ : Type} [DecidableEq κ] (key : κ)
    (ss : List (String × Stage α)) (x : α) (st st' : List ((String × κ) × α))
    (tr : List String) (hnd : (ss.map Prod.fst).Nodup)
    (h : runStages key ss x st = (.ok st', tr)) :
    tr = ss.map Prod.fst ∧
    (∀ n k, ¬(k = key ∧ n ∈ ss.map Prod.fst) →
      dictGet? st' (n, k) = dictGet? st (n, k)) ∧
    (∀ n, n ∈ ss.map Prod.fst →
      ∃ v, dictGet? st' (n, key) = some v ∧ chainRun (takeTo n ss) x = some v) := by
  induction ss generalizing x st tr with
  | nil =>
    have h1 : (Except.ok st : Except MLEError (List ((String × κ) × α))) = .ok st' :=
      congrArg Prod.fst h
    have h2 : ([] : List String) = tr := congrArg Prod.snd h
    have hst : st = st' := by injection h1
    subst hst
    exact ⟨h2.symm, fun n k _ => rfl, by simp⟩
  | cons p ss ih =>
    obtain ⟨n₀, m⟩ := p
    simp only [List.map_cons, List.nodup_cons] at hnd
    cases hm : m x with
    | none =>
      have h1 : (Except.error (MLEError.stageFailure n₀) :
          Except MLEError (List ((String × κ) × α))) = .ok st' := by
        have := congrArg Prod.fst h
        simp only [runStages, hm] at this
        exact this
      exact Except.noConfusion h1
    | some y =>
      have h1 : (runStages key ss y (dictInsert st (n₀, key) y)).1 = .ok st' := by
        have := congrArg Prod.fst h
        simp only [runStages, hm] at this
        exact this
      have h2 : n₀ :: (runStages key ss y (dictInsert st (n₀, key) y)).2 = tr := by
        have := congrArg Prod.snd h
        simp only [runStages, hm] at this
        exact this
      have hrec : runStages key ss y (dictInsert st (n₀, key) y) =
          (.ok st', (runStages key ss y (dictInsert st (n₀, key) y)).2) :=
        Prod.ext h1 rfl
      obtain ⟨ihtr, ihpres, ihval⟩ := ih y (dictInsert st (n₀, key) y) _ hnd.2 hrec
      refine ⟨?_, ?_, ?_⟩
      · rw [← h2, ihtr]
        simp
      · intro n k hnk
        have hnk' : ¬(k = key ∧ n ∈ ss.map Prod.fst) := by
          intro hc
          exact hnk ⟨hc.1, by simp [hc.2]⟩
        rw [ihpres n k hnk']
        apply dictGet?_insert_ne
        intro hcon
        have hfst : n = n₀ := congrArg Prod.fst hcon
        have hsnd : k = key := congrArg Prod.snd hcon
        exact hnk ⟨hsnd, by simp [hfst]⟩
      · intro n hn
        simp only [List.map_cons, List.mem_cons] at hn
        rcases hn with rfl | hn'
        · refine ⟨y, ?_, ?_⟩
          · rw [ihpres n key (fun hc => hnd.1 hc.2)]
            exact dictGet?_insert_self st (n, key) y
          · simp [takeTo, chainRun, hm]
        · obtain ⟨v, hv, hcv⟩ := ihval n hn'
          refine ⟨v, hv, ?_⟩
          have hne : n₀ ≠ n := fun hc => hnd.1 (hc ▸ hn')
          simp only [takeTo, hne, if_false, chainRun, hm]
          simp [hcv]

/-! Helper lemmas about the forward pass. -/

theorem mem_diffLayersOf {α κ : Type} [DecidableEq κ] (e : MLE α κ) (key : κ)
    (layers : List String) (l : String) :
    l ∈ diffLayersOf e key layers ↔ l ∈ layers ∧ l ∉ storedLayersOf e.cache key := by
  simp [diffLayersOf, List.mem_filter]

theorem forward_cached {α κ : Type} [DecidableEq κ] (tkey : α → κ) (e : MLE α κ) (x : α)
    (layers : List String) (store : Bool)
    (h : ∀ l ∈ layers, (dictGet? e.cache (l, tkey x)).isSome) :
    ∃ vs, getEach e.cache (layers.map (fun l => (l, tkey x))) = some vs ∧
      List.Forall₂ (fun l v => dictGet? e.cache (l, tkey x) = some v) layers vs ∧
      forward tkey e x layers store = (.ok vs, e, []) := by
  have hdiff : diffLayersOf e (tkey x) layers = [] := by
    rw [diffLayersOf, List.filter_eq_nil_iff]
    intro l hl
    simp [(mem_storedLayersOf e.cache (tkey x) l).mpr
      ((dictGet?_isSome_iff e.cache (l, tkey x)).mp (h l hl))]
  have hsome : ∀ q ∈ layers.map (fun l => (l, tkey x)), (dictGet? e.cache q).isSome := by
    intro q hq
    obtain ⟨l, hl, rfl⟩ := List.mem_map.mp hq
    exact h l hl
  obtain ⟨vs, hvs, hf⟩ := getEach_of_forall_isSome e.cache _ hsome
  refine ⟨vs, hvs, List.forall₂_map_left_iff.mp hf, ?_⟩
  simp only [forward, hdiff, hvs]

theorem forward_unknown_uncached {α κ : Type} [DecidableEq κ] (tkey : α → κ)
    (e : MLE α κ) (x : α) (z : String) (store : Bool)
    (hz : z ∉ childrenNames e) (hc : (z, tkey x) ∉ e.cache.map Prod.fst) :
    forward tkey e x [z] store = (.error (.unknownLayer z), e, []) := by
  have hst : z ∉ storedLayersOf e.cache (tkey x) := fun hmem =>
    hc ((mem_storedLayersOf e.cache (tkey x) z).mp hmem)
  have hdiff : diffLayersOf e (tkey x) [z] = [z] := by
    simp [diffLayersOf, hst]
  obtain ⟨l', herr, hl', _⟩ := extractDeepestLayer_err e [z] z (by simp) hz
  have hl'z : l' = z := by simpa using hl'
  subst hl'z
  simp only [forward, hdiff, herr]

theorem forward_diffcons {α κ : Type} [DecidableEq κ] (tkey : α → κ) (e : MLE α κ)
    (x : α) (layers : List String) (store : Bool) (d : String) (ds : List String)
    (dp : String) (storage : List ((String × κ) × α)) (tr : List String)
    (hnd : (childrenNames e).Nodup)
    (hdiff : diffLayersOf e (tkey x) layers = d :: ds)
    (hdeep : extractDeepestLayer e (d :: ds) = .ok dp)
    (hrs : runStages (tkey x) (e.modules.take (idxOf (childrenNames e) dp + 1)) x e.cache
      = (.ok storage, tr)) :
    ∃ vs,
      forward tkey e x layers store =
        (.ok vs,
         if store then MLE.mk e.modules e.registeredLayers (dictUpdate e.cache storage)
         else e,
         tr) ∧
      List.Forall₂ (fun l v => dictGet? storage (l, tkey x) = some v) layers vs ∧
      ∀ l ∈ layers,
        dictGet? storage (l, tkey x) =
          if l ∈ (childrenNames e).take (idxOf (childrenNames e) dp + 1)
          then activationAt e x l
          else dictGet? e.cache (l, tkey x) := by
  obtain ⟨hsubd, hdpmem, hmax⟩ := extractDeepestLayer_inv e (d :: ds) dp hdeep
  have hdpc : dp ∈ childrenNames e := hsubd dp hdpmem
  have hstnames : (e.modules.take (idxOf (childrenNames e) dp + 1)).map Prod.fst
      = (childrenNames e).take (idxOf (childrenNames e) dp + 1) := by
    simp [childrenNames, List.map_take]
  have hndst : ((childrenNames e).take (idxOf (childrenNames e) dp + 1)).Nodup :=
    List.Nodup.sublist (List.take_sublist _ _) hnd
  obtain ⟨htr, hpres, hval⟩ :=
    runStages_char (tkey x) _ x e.cache storage tr (by rw [hstnames]; exact hndst) hrs
  have hchar : ∀ l ∈ layers,
      dictGet? storage (l, tkey x) =
        if l ∈ (childrenNames e).take (idxOf (childrenNames e) dp + 1)
        then activationAt e x l
        else dictGet? e.cache (l, tkey x) := by
    intro l hl
    by_cases hmem : l ∈ (childrenNames e).take (idxOf (childrenNames e) dp + 1)
    · rw [if_pos hmem]
      obtain ⟨v, hv, hcv⟩ := hval l (by rw [hstnames]; exact hmem)
      rw [hv, activationAt,
        ← takeTo_take e.modules l (idxOf (childrenNames e) dp + 1)
          (by rw [hstnames]; exact hmem),
        hcv]
    · rw [if_neg hmem]
      refine hpres l (tkey x) ?_
      intro hcon
      rw [hstnames] at hcon
      exact hmem hcon.2
  have hsome : ∀ q ∈ layers.map (fun l => (l, tkey x)), (dictGet? storage q).isSome := by
    intro q hq
    obtain ⟨l, hl, rfl⟩ := List.mem_map.mp hq
    rw [hchar l hl]
    by_cases hmem : l ∈ (childrenNames e).take (idxOf (childrenNames e) dp + 1)
    · rw [if_pos hmem]
      obtain ⟨v, hv, hcv⟩ := hval l (by rw [hstnames]; exact hmem)
      rw [activationAt,
        ← takeTo_take e.modules l (idxOf (childrenNames e) dp + 1)
          (by rw [hstnames]; exact hmem),
        hcv]
      rfl
    · rw [if_neg hmem]
      have hlstored : l ∈ storedLayersOf e.cache (tkey x) := by
        by_contra hns
        have hmemd : l ∈ diffLayersOf e (tkey x) layers :=
          (mem_diffLayersOf e (tkey x) layers l).mpr ⟨hl, hns⟩
        rw [hdiff] at hmemd
        exact hmem (idxOf_mem_take _ _ _ (hsubd l hmemd) (Nat.lt_succ_of_le (hmax l hmemd)))
      rw [dictGet?_isSome_iff]
      exact (mem_storedLayersOf e.cache (tkey x) l).mp hlstored
  obtain ⟨vs, hvs, hf⟩ := getEach_of_forall_isSome storage _ hsome
  have hnt : namedChildrenTo e dp true =
      .ok (e.modules.take (idxOf (childrenNames e) dp + 1)) := by
    rw [namedChildrenTo, if_pos hdpc]
    simp
  refine ⟨vs, ?_, List.forall₂_map_left_iff.mp hf, hchar⟩
  simp only [forward, hdiff, hdeep, hnt, hrs, hvs]

/-! Helper lemmas for trim. -/

theorem foldl_removeFirst_head_ne {γ : Type} (ks : List (String × γ))
    (m : String × γ) (h : ∀ p ∈ ks, p.1 ≠ m.1) :
    ∀ ms : List (String × γ),
      ks.foldl (fun acc p => removeFirst acc p.1) (m :: ms) =
        m :: ks.foldl (fun acc p => removeFirst acc p.1) ms := by
  induction ks with
  | nil => intro ms; rfl
  | cons q qs ih =>
    intro ms
    have hq : q.1 ≠ m.1 := h q (List.mem_cons_self _ _)
    have hrw : removeFirst (m :: ms) q.1 = m :: removeFirst ms q.1 := by
      simp only [removeFirst]
      rw [if_neg (Ne.symm hq)]
    simp only [List.foldl_cons, hrw]
    exact ih (fun p hp => h p (List.mem_cons_of_mem _ hp)) (removeFirst ms q.1)

theorem drop_foldl_removeFirst {γ : Type} (ms : List (String × γ))
    (hnd : (ms.map Prod.fst).Nodup) (j : Nat) :
    (ms.drop j).foldl (fun acc p => removeFirst acc p.1) ms = ms.take j := by
  induction ms generalizing j with
  | nil => simp
  | cons m rest ih =>
    simp only [List.map_cons, List.nodup_cons] at hnd
    cases j with
    | zero =>
      simp only [List.drop_zero, List.take_zero, List.foldl_cons]
      have hhead : removeFirst (m :: rest) m.1 = rest := by
        simp [removeFirst]
      rw [hhead]
      simpa using ih hnd.2 0
    | succ j' =>
      simp only [List.drop_succ_cons, List.take_succ_cons]
      have hne : ∀ p ∈ rest.drop j', p.1 ≠ m.1 := by
        intro p hp hc
        exact hnd.1 (hc ▸ List.mem_map_of_mem Prod.fst (List.mem_of_mem_drop hp))
      rw [foldl_removeFirst_head_ne (rest.drop j') m hne rest, ih hnd.2 j']

theorem trim_ok {α κ : Type} (e : MLE α κ) (layers : List String) (dp : String)
    (hnd : (childrenNames e).Nodup)
    (hdeep : extractDeepestLayer e layers = .ok dp) :
    trim e (some layers) =
      (.ok (), MLE.mk (e.modules.take (idxOf (childrenNames e) dp + 1))
        e.registeredLayers e.cache) := by
  obtain ⟨hsub, hdpmem, _⟩ := extractDeepestLayer_inv e layers dp hdeep
  have hdpc : dp ∈ childrenNames e := hsub dp hdpmem
  have hnf : namedChildrenFrom e dp false =
      .ok (e.modules.drop (idxOf (childrenNames e) dp + 1)) := by
    rw [namedChildrenFrom, if_pos hdpc]
    simp
  have hfold : (e.modules.drop (idxOf (childrenNames e) dp + 1)).foldl
      (fun acc p => removeFirst acc p.1) e.modules =
        e.modules.take (idxOf (childrenNames e) dp + 1) :=
    drop_foldl_removeFirst e.modules hnd _
  simp only [trim, Option.getD_some, hdeep, hnf, hfold]

/-! Helper lemmas for the zip-built replacement cache in encode. -/

theorem forall₂_imp_of_mem {β γ : Type} {R S : β → γ → Prop} {l₁ : List β} {l₂ : List γ}
    (h : ∀ a b, a ∈ l₁ → R a b → S a b) (hf : List.Forall₂ R l₁ l₂) :
    List.Forall₂ S l₁ l₂ := by
  induction hf with
  | nil => exact List.Forall₂.nil
  | cons hR htail ih =>
    exact List.Forall₂.cons (h _ _ (List.mem_cons_self _ _) hR)
      (ih (fun a b ha hR' => h a b (List.mem_cons_of_mem _ ha) hR'))

theorem zip_dictGet?_inv {α κ : Type} [DecidableEq κ] (key : κ) {P : String → α → Prop} :
    ∀ (reg : List String) (vs : List α), List.Forall₂ P reg vs →
      ∀ (n : String) (k : κ) (v : α),
        dictGet? ((reg.map (fun l => (l, key))).zip vs) (n, k) = some v →
        n ∈ reg ∧ k = key ∧ P n v := by
  intro reg vs hf
  induction hf with
  | nil => intro n k v h; simp [dictGet?] at h
  | cons hP htail ih =>
    rename_i l₀ v₀ reg' vs'
    intro n k v h
    simp only [List.map_cons, List.zip_cons_cons, dictGet?] at h
    by_cases hc : (n, k) = (l₀, key)
    · rw [if_pos hc] at h
      have hn : n = l₀ := congrArg Prod.fst hc
      have hk : k = key := congrArg Prod.snd hc
      obtain rfl := Option.some.inj h
      exact ⟨by simp [hn], hk, by rw [hn]; exact hP⟩
    · rw [if_neg hc] at h
      obtain ⟨hmem, hk, hPv⟩ := ih n k v h
      exact ⟨List.mem_cons_of_mem _ hmem, hk, hPv⟩

theorem zip_dictGet?_mem {α κ : Type} [DecidableEq κ] (key : κ) {P : String → α → Prop} :
    ∀ (reg : List String) (vs : List α), List.Forall₂ P reg vs →
      ∀ n : String, n ∈ reg →
        ∃ v, dictGet? ((reg.map (fun l => (l, key))).zip vs) (n, key) = some v ∧ P n v := by
  intro reg vs hf
  induction hf with
  | nil => intro n hn; simp at hn
  | cons hP htail ih =>
    rename_i l₀ v₀ reg' vs'
    intro n hn
    simp only [List.map_cons, List.zip_cons_cons]
    by_cases hc : n = l₀
    · subst hc
      exact ⟨v₀, by simp [dictGet?], hP⟩
    · have hn' : n ∈ reg' := by
        rcases List.mem_cons.mp hn with h | h
        · exact absurd h hc
        · exact h
      obtain ⟨v, hv, hPv⟩ := ih n hn'
      refine ⟨v, ?_, hPv⟩
      rw [dictGet?, if_neg (fun hcon => hc (congrArg Prod.fst hcon))]
      exact hv

/-! Helper lemmas for the samplers. -/

theorem icbsBatchFrom_formula (s : InfiniteCycleBatchSampler) (hpos : 0 < s.size) :
    ∀ (k pos : Nat), icbsBatchFrom s pos k =
      some ((List.range s.batchSize).map (fun j => (pos + k * s.batchSize + j) % s.size)) := by
  intro k
  induction k with
  | zero =>
    intro pos
    simp [icbsBatchFrom, nextn, Nat.pos_iff_ne_zero.mp hpos]
  | succ k' ih =>
    intro pos
    rw [icbsBatchFrom, ih (pos + s.batchSize)]
    congr 1
    apply List.map_congr_left
    intro j _
    congr 1
    ring

theorem icbsBatchFrom_size_zero (s : InfiniteCycleBatchSampler) (hs : s.size = 0)
    (hbs : 0 < s.batchSize) : ∀ (k pos : Nat), icbsBatchFrom s pos k = none := by
  intro k
  induction k with
  | zero => intro pos; simp [icbsBatchFrom, nextn, hs, Nat.pos_iff_ne_zero.mp hbs]
  | succ k' ih => intro pos; rw [icbsBatchFrom]; exact ih _

theorem collectBatches_spec (s : InfiniteCycleBatchSampler) (hpos : 0 < s.size) :
    ∀ (n k : Nat), ∃ bs, collectBatches s k n = some bs ∧ bs.length = n ∧
      ∀ i (h : i < bs.length), some (bs.get ⟨i, h⟩) = s.batch (k + i) := by
  intro n
  induction n with
  | zero => intro k; exact ⟨[], rfl, rfl, by intro i h; cases h⟩
  | succ n' ih =>
    intro k
    obtain ⟨bs, hbs, hlen, hget⟩ := ih (k + 1)
    have hb : s.batch k =
        some ((List.range s.batchSize).map (fun j => (k * s.batchSize + j) % s.size)) := by
      rw [InfiniteCycleBatchSampler.batch, icbsBatchFrom_formula s hpos k 0]
      simp
    refine ⟨((List.range s.batchSize).map (fun j => (k * s.batchSize + j) % s.size)) :: bs,
      ?_, by simp [hlen], ?_⟩
    · rw [collectBatches, hb, hbs]
    · intro i h
      cases i with
      | zero => simpa using hb.symm
      | succ i' =>
        have h' : i' < bs.length := by simpa using h
        have := hget i' h'
        simpa [Nat.add_assoc, Nat.add_comm 1 i'] using this

/-! Helper lemmas for guide propagation. -/

theorem runGuides_ok_of_ok {α γ : Type} (prop : Stage α → γ → String → Bool → Except String γ)
    (method : String) (ae : Bool) :
    ∀ (ss : List (String × Stage α)) (g : γ) (acc : List (String × γ)) (gf : γ),
      guideChain prop method ae ss g = .ok gf →
      ∃ gd, runGuides prop method ae ss g acc = .ok gd := by
  intro ss
  induction ss with
  | nil => intro g acc gf _; exact ⟨acc, rfl⟩
  | cons p ss ih =>
    obtain ⟨n, m⟩ := p
    intro g acc gf h
    cases hm : prop m g method ae with
    | error err => rw [guideChain, hm] at h; cases h
    | ok g' =>
      rw [guideChain, hm] at h
      obtain ⟨gd, hgd⟩ := ih g' (dictInsert acc n g') gf h
      exact ⟨gd, by rw [runGuides, hm]; exact hgd⟩

theorem runGuides_err {α γ : Type} (prop : Stage α → γ → String → Bool → Except String γ)
    (method : String) (ae : Bool) :
    ∀ (ss : List (String × Stage α)) (g : γ) (acc : List (String × γ)) (err : String),
      guideChain prop method ae ss g = .error err →
      runGuides prop method ae ss g acc = .error (.guideFailure err) := by
  intro ss
  induction ss with
  | nil => intro g acc err h; cases h
  | cons p ss ih =>
    obtain ⟨n, m⟩ := p
    intro g acc err h
    cases hm : prop m g method ae with
    | error err' =>
      rw [guideChain, hm] at h
      obtain rfl := Except.error.inj h
      rw [runGuides, hm]
    | ok g' =>
      rw [guideChain, hm] at h
      rw [runGuides, hm]
      exact ih g' (dictInsert acc n g') err h

theorem runGuides_char {α γ : Type} (prop : Stage α → γ → String → Bool → Except String γ)
    (method : String) (ae : Bool) :
    ∀ (ss : List (String × Stage α)) (g : γ) (acc gd : List (String × γ)),
      (ss.map Prod.fst).Nodup →
      runGuides prop method ae ss g acc = .ok gd →
      (∀ n, n ∉ ss.map Prod.fst → dictGet? gd n = dictGet? acc n) ∧
      (∀ n, n ∈ ss.map Prod.fst →
        ∃ gn, dictGet? gd n = some gn ∧
          guideChain prop method ae (takeTo n ss) g = .ok gn) := by
  intro ss
  induction ss with
  | nil =>
    intro g acc gd _ h
    obtain rfl := Except.ok.inj h
    exact ⟨fun n _ => rfl, by simp⟩
  | cons p ss ih =>
    obtain ⟨n₀, m⟩ := p
    intro g acc gd hnd h
    simp only [List.map_cons, List.nodup_cons] at hnd
    cases hm : prop m g method ae with
    | error err => rw [runGuides, hm] at h; cases h
    | ok g' =>
      rw [runGuides, hm] at h
      obtain ⟨ihpres, ihval⟩ := ih g' (dictInsert acc n₀ g') gd hnd.2 h
      constructor
      · intro n hn
        simp only [List.map_cons, List.mem_cons] at hn
        push_neg at hn
        rw [ihpres n (fun hc => hn.2 hc)]
        exact dictGet?_insert_ne acc n n₀ g' hn.1
      · intro n hn
        simp only [List.map_cons, List.mem_cons] at hn
        rcases hn with rfl | hn'
        · refine ⟨g', ?_, ?_⟩
          · rw [ihpres n hnd.1]
            exact dictGet?_insert_self acc n g'
          · simp [takeTo, guideChain, hm]
        · obtain ⟨gn, hgn, hcv⟩ := ihval n hn'
          refine ⟨gn, hgn, ?_⟩
          have hne : n₀ ≠ n := fun hc => hnd.1 (hc ▸ hn')
          simp only [takeTo, hne, if_false, guideChain, hm]
          simp [hcv]

theorem takeTo_eq_take_children {α κ : Type} (e : MLE α κ) (l : String)
    (hl : l ∈ childrenNames e) :
    takeTo l e.modules = e.modules.take (idxOf (childrenNames e) l + 1) :=
  takeTo_eq_take e.modules l hl

theorem encode_of_ne_nil {α κ : Type} [DecidableEq κ] (tkey : α → κ) (e : MLE α κ)
    (x : α) (vs : List α) (e'' : MLE α κ) (tr : List String)
    (hne : e.registeredLayers ≠ [])
    (hfwd : forward tkey e x e.registeredLayers true = (.ok vs, e'', tr)) :
    encode tkey e x = (.ok (), MLE.mk e''.modules e''.registeredLayers
      (dictOfList ((e.registeredLayers.map (fun l => (l, tkey x))).zip vs))) := by
  cases hr : e.registeredLayers with
  | nil => exact absurd hr hne
  | cons r₀ rs =>
    rw [hr] at hfwd
    simp only [encode, hr, hfwd]

/-! The claims. -/

/-- Claim C3, amended: trim(layers) (using the registered layers when layers is
omitted) permanently deletes exactly the stages strictly after the deepest
layer in the given set, and a subsequent forward call requesting a deleted
layer fails with the unknown-layer error provided that layer is not cached for
the input's key (a cached entry is returned without any error instead, see the
counterexample). -/
theorem claim3_trim_deletes_tail :
    (∀ (α κ : Type) (e : MLE α κ) (layers : List String) (dp : String),
      (childrenNames e).Nodup →
      extractDeepestLayer e layers = .ok dp →
      trim e (some layers) =
        (.ok (), MLE.mk (e.modules.take (idxOf (childrenNames e) dp + 1))
          e.registeredLayers e.cache))
    ∧ (∀ (α κ : Type) (e : MLE α κ), trim e none = trim e (some e.registeredLayers))
    ∧ (∀ (α κ : Type) [DecidableEq κ] (tkey : α → κ) (e : MLE α κ)
        (x : α) (layers : List String) (dp z : String) (store : Bool),
        (childrenNames e).Nodup →
        extractDeepestLayer e layers = .ok dp →
        z ∈ childrenNames e →
        idxOf (childrenNames e) dp < idxOf (childrenNames e) z →
        (z, tkey x) ∉ e.cache.map Prod.fst →
        forward tkey (trim e (some layers)).2 x [z] store =
          (.error (.unknownLayer z), (trim e (some layers)).2, []))
    ∧ childrenNames (trim (MLE.mk [("a", fun x : Nat => some x), ("b", fun x => some x),
        ("c", fun x => some x)] [] ([] : List ((String × Nat) × Nat))) (some ["b"])).2
        = ["a", "b"] := by
  refine ⟨?_, ?_, ?_, by decide⟩
  · intro α κ e layers dp hnd hdeep
    exact trim_ok e layers dp hnd hdeep
  · intro α κ e
    rfl
  · intro α κ inst tkey e x layers dp z store hnd hdeep hz hlt hc
    rw [trim_ok e layers dp hnd hdeep]
    apply forward_unknown_uncached
    · intro hmem
      have : idxOf (childrenNames e) z < idxOf (childrenNames e) dp + 1 := by
        apply idxOf_lt_of_mem_take
        simpa [childrenNames, List.map_take] using hmem
      omega
    · exact hc

/-- Claim C3 counterexample: after caching the activations of a, b, c with a
stored forward call, trimming to b deletes stage c, yet a subsequent forward
requesting c succeeds from the cache instead of failing. -/
theorem claim3_counterexample :
    ("c" ∉ childrenNames
      (trim (forward (fun _ => (0 : Nat))
        (MLE.mk [("a", fun x : Nat => some (x + 1)), ("b", fun x : Nat => some (x * 2)),
          ("c", fun x : Nat => some (x + 10))] [] []) 5 ["c"] true).2.1 (some ["b"])).2) ∧
    (forward (fun _ => (0 : Nat))
      (trim (forward (fun _ => (0 : Nat))
        (MLE.mk [("a", fun x : Nat => some (x + 1)), ("b", fun x : Nat => some (x * 2)),
          ("c", fun x : Nat => some (x + 10))] [] []) 5 ["c"] true).2.1 (some ["b"])).2
      5 ["c"] false).1 = .ok [22] := by
  exact ⟨by decide, rfl⟩

/-- Claim C3 witness: trimming the three-stage container to b keeps a and b
and deletes c. -/
theorem claim3_witness :
    trim (MLE.mk [("a", fun x : Nat => some (x + 1)), ("b", fun x : Nat => some (x * 2)),
      ("c", fun x : Nat => some (x + 10))] [] ([] : List ((String × Nat) × Nat)))
      (some ["b"]) =
      (.ok (), MLE.mk [("a", fun x : Nat => some (x + 1)), ("b", fun x : Nat => some (x * 2))]
        [] []) :=
  claim3_trim_deletes_tail.1 Nat Nat _ ["b"] "b" (by decide) rfl

/-- Claim C4, amended: requesting a layer name that is not a stage name fails
with the unknown-layer error and leaves the encoder state unchanged, provided
the name is not cached for the input's key; a cached entry for that name is
returned without any verification instead (see the counterexample). -/
theorem claim4_unknown_layer_uncached {α κ : Type} [DecidableEq κ] (tkey : α → κ)
    (e : MLE α κ) (x : α) (z : String) (store : Bool)
    (hz : z ∉ childrenNames e) (hc : (z, tkey x) ∉ e.cache.map Prod.fst) :
    forward tkey e x [z] store = (.error (.unknownLayer z), e, []) :=
  forward_unknown_uncached tkey e x z store hz hc

/-- Claim C4 counterexample: after a stored forward call and a trim that
deletes stage z, the name z is no longer a stage name, yet forward(x, [z])
succeeds from the cache rather than failing with the unknown-layer error. -/
theorem claim4_counterexample :
    ("z" ∉ childrenNames
      (trim (forward (fun _ => (0 : Nat))
        (MLE.mk [("a", fun x : Nat => some (x + 1)), ("z", fun x : Nat => some (x * 2))]
          [] []) 1 ["z"] true).2.1 (some ["a"])).2) ∧
    (forward (fun _ => (0 : Nat))
      (trim (forward (fun _ => (0 : Nat))
        (MLE.mk [("a", fun x : Nat => some (x + 1)), ("z", fun x : Nat => some (x * 2))]
          [] []) 1 ["z"] true).2.1 (some ["a"])).2 1 ["z"] false).1 = .ok [4] := by
  exact ⟨by decide, rfl⟩

/-- Claim C4 witness: a request for the absent name q on a one-stage container
with an empty cache fails with the unknown-layer error and leaves the state
unchanged. -/
theorem claim4_witness :
    forward (fun _ => (0 : Nat)) (MLE.mk [("a", fun x : Nat => some (x + 1))] []
      ([] : List ((String × Nat) × Nat))) (3 : Nat) ["q"] true =
      (.error (.unknownLayer "q"), MLE.mk [("a", fun x : Nat => some (x + 1))] []
        ([] : List ((String × Nat) × Nat)), []) :=
  claim4_unknown_layer_uncached (fun _ => (0 : Nat)) _ 3 "q" true (by decide) (by decide)

/-- Claim C5: the persistent cache is mutated by forward only on a store call
in which every needed stage ran: with store unset the state is unchanged, and
any failing call (including a stage raising mid-run) leaves the state
unchanged, discarding the partial local results. -/
theorem claim5_store_discipline {α κ : Type} [DecidableEq κ] (tkey : α → κ) (e : MLE α κ)
    (x : α) (layers : List String) (store : Bool)
    (hnd : (childrenNames e).Nodup) :
    (store = false → (forward tkey e x layers store).2.1 = e) ∧
    (∀ err, (forward tkey e x layers store).1 = .error err →
      (forward tkey e x layers store).2.1 = e) := by
  cases hdiff : diffLayersOf e (tkey x) layers with
  | nil =>
    cases hg : getEach e.cache (layers.map (fun l => (l, tkey x))) with
    | none =>
      refine ⟨fun _ => ?_, fun err _ => ?_⟩ <;> simp [forward, hdiff, hg]
    | some vs =>
      refine ⟨fun _ => ?_, fun err herr => ?_⟩
      · simp [forward, hdiff, hg]
      · simp [forward, hdiff, hg] at herr
  | cons d ds =>
    cases hx : extractDeepestLayer e (d :: ds) with
    | error err' =>
      refine ⟨fun _ => ?_, fun err _ => ?_⟩ <;> simp [forward, hdiff, hx]
    | ok dp =>
      obtain ⟨hsub, hdpmem, _⟩ := extractDeepestLayer_inv e (d :: ds) dp hx
      have hnt : namedChildrenTo e dp true =
          .ok (e.modules.take (idxOf (childrenNames e) dp + 1)) := by
        rw [namedChildrenTo, if_pos (hsub dp hdpmem)]
        simp
      rcases hrr : runStages (tkey x) (e.modules.take (idxOf (childrenNames e) dp + 1))
          x e.cache with ⟨r1, r2⟩
      cases r1 with
      | error err' =>
        refine ⟨fun _ => ?_, fun err _ => ?_⟩ <;> simp [forward, hdiff, hx, hnt, hrr]
      | ok storage =>
        obtain ⟨vs, hfwd, _, _⟩ :=
          forward_diffcons tkey e x layers store d ds dp storage r2 hnd hdiff hx hrr
        rw [hfwd]
        refine ⟨fun hst => ?_, fun err herr => ?_⟩
        · simp [hst]
        · simp at herr

/-- Claim C5 witness: a plain forward call without store leaves the encoder
state unchanged. -/
theorem claim5_witness :
    (childrenNames (MLE.mk [("a", fun x : Nat => some (x + 1))] []
      ([] : List ((String × Nat) × Nat)))).Nodup ∧
    (forward (fun _ => (0 : Nat)) (MLE.mk [("a", fun x : Nat => some (x + 1))] [] [])
      (3 : Nat) ["a"] false).2.1 =
      MLE.mk [("a", fun x : Nat => some (x + 1))] [] [] :=
  ⟨by decide, (claim5_store_discipline (fun _ => (0 : Nat)) _ 3 ["a"] false (by decide)).1 rfl⟩

/-- Claim C6: forward performs no validation of layer names already cached for
the input's key: even a name absent from the stage container is served from
the cache without error, and without running any stage. -/
theorem claim6_cached_layer_not_verified {α κ : Type} [DecidableEq κ] (tkey : α → κ)
    (e : MLE α κ) (x : α) (n : String) (v : α) (store : Bool)
    (hn : n ∉ childrenNames e)
    (hv : dictGet? e.cache (n, tkey x) = some v) :
    forward tkey e x [n] store = (.ok [v], e, []) := by
  have hsome : ∀ l ∈ [n], (dictGet? e.cache (l, tkey x)).isSome := by
    intro l hl
    have hln : l = n := by simpa using hl
    subst hln
    simp [hv]
  obtain ⟨vs, hvs, hf, hfwd⟩ := forward_cached tkey e x [n] store hsome
  cases hf with
  | cons hpv htl =>
    cases htl
    rw [hv] at hpv
    obtain rfl := Option.some.inj hpv
    exact hfwd

/-- Claim C6 witness: the cached name z is served although no stage named z
exists. -/
theorem claim6_witness :
    forward (fun _ => (0 : Nat)) (MLE.mk [("a", fun x : Nat => some (x + 1))] []
      [(("z", 0), 7)]) (3 : Nat) ["z"] false =
      (.ok [7], MLE.mk [("a", fun x : Nat => some (x + 1))] [] [(("z", 0), 7)], []) :=
  claim6_cached_layer_not_verified (fun _ => (0 : Nat)) _ 3 "z" 7 false (by decide) (by decide)

/-- Claim C7: extract_deepest_layer fails with the unknown-layer error if any
requested name is absent from the container, and otherwise returns a requested
name occurring latest in the container order; on stages a, b, c it returns c
for the request (a, c), and on stages c, b, a it returns a for the same
request. -/
theorem claim7_extract_deepest_layer :
    (∀ (α κ : Type) (e : MLE α κ) (layers : List String) (l : String),
      l ∈ layers → l ∉ childrenNames e →
      ∃ l', extractDeepestLayer e layers = .error (.unknownLayer l') ∧
        l' ∈ layers ∧ l' ∉ childrenNames e)
    ∧ (∀ (α κ : Type) (e : MLE α κ) (layers : List String),
        layers ≠ [] → (∀ l ∈ layers, l ∈ childrenNames e) →
        ∃ dp, extractDeepestLayer e layers = .ok dp ∧ dp ∈ layers ∧
          ∀ l ∈ layers, idxOf (childrenNames e) l ≤ idxOf (childrenNames e) dp)
    ∧ extractDeepestLayer (MLE.mk [("a", fun x : Nat => some x), ("b", fun x => some x),
        ("c", fun x => some x)] [] ([] : List ((String × Nat) × Nat))) ["a", "c"] = .ok "c"
    ∧ extractDeepestLayer (MLE.mk [("c", fun x : Nat => some x), ("b", fun x => some x),
        ("a", fun x => some x)] [] ([] : List ((String × Nat) × Nat))) ["a", "c"] = .ok "a" := by
  refine ⟨?_, ?_, rfl, rfl⟩
  · intro α κ e layers l hl habs
    exact extractDeepestLayer_err e layers l hl habs
  · intro α κ e layers hne hall
    obtain ⟨dp, hdp⟩ := extractDeepestLayer_ok e layers hall hne
    obtain ⟨_, hmem, hle⟩ := extractDeepestLayer_inv e layers dp hdp
    exact ⟨dp, hdp, hmem, hle⟩

/-- Claim C7 witness: requesting the absent name q fails with the
unknown-layer error naming q. -/
theorem claim7_witness :
    ∃ l', extractDeepestLayer (MLE.mk [("b", fun x : Nat => some x)] []
      ([] : List ((String × Nat) × Nat))) ["q"] = .error (.unknownLayer l') ∧
      l' ∈ ["q"] ∧
      l' ∉ childrenNames (MLE.mk [("b", fun x : Nat => some x)] []
        ([] : List ((String × Nat) × Nat))) :=
  claim7_extract_deepest_layer.1 Nat Nat _ ["q"] "q" (by decide) (by decide)

/-- Claim C1: on the three-stage container a, b, c with an empty cache,
forward(x, c) runs a, b, c in that order exactly once; and whenever every
requested layer is already cached for the input's key, forward returns the
cached activations with no stage running and the state unchanged. -/
theorem claim1_forward_order_and_cache_reuse {α κ : Type} [DecidableEq κ] (tkey : α → κ) :
    (∀ (fa fb fc : Stage α) (reg : List String) (x y1 y2 y3 : α),
      fa x = some y1 → fb y1 = some y2 → fc y2 = some y3 →
      forward tkey (MLE.mk [("a", fa), ("b", fb), ("c", fc)] reg []) x ["c"] false =
        (.ok [y3], MLE.mk [("a", fa), ("b", fb), ("c", fc)] reg [], ["a", "b", "c"]))
    ∧ (∀ (e : MLE α κ) (x : α) (layers : List String) (store : Bool),
        (∀ l ∈ layers, (dictGet? e.cache (l, tkey x)).isSome) →
        ∃ vs, getEach e.cache (layers.map (fun l => (l, tkey x))) = some vs ∧
          forward tkey e x layers store = (.ok vs, e, [])) := by
  constructor
  · intro fa fb fc reg x y1 y2 y3 ha hb hc
    simp [forward, diffLayersOf, storedLayersOf, extractDeepestLayer, childrenNames,
      namedChildrenTo, idxOf, runStages, getEach, dictGet?, dictInsert, ha, hb, hc]
  · intro e x layers store h
    obtain ⟨vs, hvs, _, hfwd⟩ := forward_cached tkey e x layers store h
    exact ⟨vs, hvs, hfwd⟩

/-- Claim C1 witness: concrete three-stage run in order, exactly once. -/
theorem claim1_witness :
    forward (fun _ => (0 : Nat)) (MLE.mk [("a", fun x : Nat => some (x + 1)),
      ("b", fun x : Nat => some (x * 2)), ("c", fun x : Nat => some (x + 10))] [] [])
      5 ["c"] false =
      (.ok [22], MLE.mk [("a", fun x : Nat => some (x + 1)),
        ("b", fun x : Nat => some (x * 2)), ("c", fun x : Nat => some (x + 10))] [] [],
       ["a", "b", "c"]) :=
  (claim1_forward_order_and_cache_reuse (fun _ => (0 : Nat))).1 _ _ _ [] 5 6 12 22 rfl rfl rfl

/-- Claim C2: when the registered layers are nonempty and the cache is
coherent for the input's key, encode leaves the cache holding exactly one
entry per registered layer, keyed by the input's key and mapped to that
layer's activation, with every other entry gone; with no registered layers,
encode is a no-op. -/
theorem claim2_encode_replaces_cache {α κ : Type} [DecidableEq κ] (tkey : α → κ)
    (e : MLE α κ) (x : α)
    (hnd : (childrenNames e).Nodup)
    (hreg : e.registeredLayers.Nodup)
    (hsub : ∀ l ∈ e.registeredLayers, l ∈ childrenNames e)
    (hco : ∀ l v, dictGet? e.cache (l, tkey x) = some v → activationAt e x l = some v)
    (hrun : ∀ l ∈ childrenNames e, (activationAt e x l).isSome) :
    (e.registeredLayers = [] → encode tkey e x = (.ok (), e)) ∧
    (e.registeredLayers ≠ [] →
      ∃ e', encode tkey e x = (.ok (), e') ∧
        ∀ n k, dictGet? e'.cache (n, k) =
          if n ∈ e.registeredLayers ∧ k = tkey x then activationAt e x n else none) := by
  constructor
  · intro h
    simp [encode, h]
  · intro hne
    have hONE : ∃ vs e'' tr,
        forward tkey e x e.registeredLayers true = (.ok vs, e'', tr) ∧
        List.Forall₂ (fun l v => activationAt e x l = some v) e.registeredLayers vs := by
      cases hdiff : diffLayersOf e (tkey x) e.registeredLayers with
      | nil =>
        have hsome : ∀ l ∈ e.registeredLayers, (dictGet? e.cache (l, tkey x)).isSome := by
          intro l hl
          have hst : l ∈ storedLayersOf e.cache (tkey x) := by
            by_contra hns
            have hmem : l ∈ diffLayersOf e (tkey x) e.registeredLayers :=
              (mem_diffLayersOf e (tkey x) _ l).mpr ⟨hl, hns⟩
            rw [hdiff] at hmem
            cases hmem
          rw [dictGet?_isSome_iff]
          exact (mem_storedLayersOf e.cache (tkey x) l).mp hst
        obtain ⟨vs, _, hf, hfwd⟩ := forward_cached tkey e x e.registeredLayers true hsome
        exact ⟨vs, e, [], hfwd,
          forall₂_imp_of_mem (fun l v _ hlv => hco l v hlv) hf⟩
      | cons d ds =>
        have hsubd : ∀ l ∈ d :: ds, l ∈ childrenNames e := by
          intro l hl
          rw [← hdiff] at hl
          exact hsub l ((mem_diffLayersOf e (tkey x) _ l).mp hl).1
        obtain ⟨dp, hdeep⟩ := extractDeepestLayer_ok e (d :: ds) hsubd (by simp)
        obtain ⟨_, hdpmem, _⟩ := extractDeepestLayer_inv e (d :: ds) dp hdeep
        have hdpc : dp ∈ childrenNames e := hsubd dp hdpmem
        have hchain : (chainRun (e.modules.take (idxOf (childrenNames e) dp + 1)) x).isSome := by
          rw [← takeTo_eq_take_children e dp hdpc]
          exact hrun dp hdpc
        obtain ⟨storage, hrs⟩ := runStages_ok_of_isSome (tkey x) _ x e.cache hchain
        obtain ⟨vs, hfwd, hf, hchar⟩ :=
          forward_diffcons tkey e x e.registeredLayers true d ds dp storage _
            hnd hdiff hdeep hrs
        refine ⟨vs, _, _, hfwd, forall₂_imp_of_mem ?_ hf⟩
        intro l v hl hlv
        rw [hchar l hl] at hlv
        by_cases hmem : l ∈ (childrenNames e).take (idxOf (childrenNames e) dp + 1)
        · rw [if_pos hmem] at hlv
          exact hlv
        · rw [if_neg hmem] at hlv
          exact hco l v hlv
    obtain ⟨vs, e'', tr, hfwd, hf⟩ := hONE
    refine ⟨MLE.mk e''.modules e''.registeredLayers
      (dictOfList ((e.registeredLayers.map (fun l => (l, tkey x))).zip vs)),
      encode_of_ne_nil tkey e x vs e'' tr hne hfwd, ?_⟩
    intro n k
    have hlen : (e.registeredLayers.map (fun l => (l, tkey x))).length ≤ vs.length := by
      rw [List.length_map, hf.length_eq]
    have hkeys : (((e.registeredLayers.map (fun l => (l, tkey x))).zip vs).map Prod.fst)
        = e.registeredLayers.map (fun l => (l, tkey x)) :=
      List.map_fst_zip _ _ hlen
    have hinj : Function.Injective (fun l : String => (l, tkey x)) := by
      intro a b hab
      exact congrArg Prod.fst hab
    have hknd : ((e.registeredLayers.map (fun l => (l, tkey x)))).Nodup :=
      List.Nodup.map hinj hreg
    show dictGet? (dictOfList ((e.registeredLayers.map (fun l => (l, tkey x))).zip vs)) (n, k)
      = if n ∈ e.registeredLayers ∧ k = tkey x then activationAt e x n else none
    rw [dictOfList_get _ (by rw [hkeys]; exact hknd) (n, k)]
    by_cases hcase : n ∈ e.registeredLayers ∧ k = tkey x
    · obtain ⟨v, hv, hPv⟩ := zip_dictGet?_mem (tkey x) e.registeredLayers vs hf n hcase.1
      rw [if_pos hcase, hcase.2, hv]
      exact hPv.symm
    · rw [if_neg hcase]
      cases hg : dictGet? ((e.registeredLayers.map (fun l => (l, tkey x))).zip vs) (n, k) with
      | none => rfl
      | some v =>
        obtain ⟨hmem, hk, _⟩ := zip_dictGet?_inv (tkey x) e.registeredLayers vs hf n k v hg
        exact absurd ⟨hmem, hk⟩ hcase

/-- Claim C2 witness: encoding with registered layer b on a two-stage
container with an empty cache leaves exactly the entry for b at the input's
key. -/
theorem claim2_witness :
    (["b"] : List String) ≠ [] ∧
    (∃ e', encode (fun _ => (0 : Nat)) (MLE.mk [("a", fun x : Nat => some (x + 1)),
        ("b", fun x : Nat => some (x * 2))] ["b"]
        ([] : List ((String × Nat) × Nat))) 5 = (.ok (), e') ∧
      ∀ n k, dictGet? e'.cache (n, k) =
        if n ∈ (["b"] : List String) ∧ k = 0 then
          activationAt (MLE.mk [("a", fun x : Nat => some (x + 1)),
            ("b", fun x : Nat => some (x * 2))] ["b"]
            ([] : List ((String × Nat) × Nat))) 5 n
        else none) :=
  ⟨by decide, (claim2_encode_replaces_cache (fun _ => (0 : Nat)) _ 5 (by decide) (by decide)
    (by decide) (fun l v h => by simp [dictGet?] at h) (by decide)).2 (by decide)⟩

/-- Claim C8: propagate_guide applies the external collaborator successively
to the guide through every stage from the first through the deepest requested
layer inclusive, retains each intermediate propagated guide, returns the
guides for the requested layers in request order, and surfaces a collaborator
failure to the caller with the error unchanged. -/
theorem claim8_propagate_guide {α κ γ : Type}
    (prop : Stage α → γ → String → Bool → Except String γ) (e : MLE α κ)
    (guide : γ) (layers : List String) (method : String) (allowEmpty : Bool)
    (hnd : (childrenNames e).Nodup)
    (hne : layers ≠ []) (hsub : ∀ l ∈ layers, l ∈ childrenNames e) :
    ∃ dp, extractDeepestLayer e layers = .ok dp ∧
      ((∀ l ∈ childrenNames e,
          ∃ gl, guideChain prop method allowEmpty (takeTo l e.modules) guide = .ok gl) →
        ∃ gs, propagateGuideMLE prop e guide layers method allowEmpty = .ok gs ∧
          List.Forall₂ (fun l gl =>
            guideChain prop method allowEmpty (takeTo l e.modules) guide = .ok gl) layers gs)
      ∧ (∀ err,
          guideChain prop method allowEmpty
            (e.modules.take (idxOf (childrenNames e) dp + 1)) guide = .error err →
          propagateGuideMLE prop e guide layers method allowEmpty =
            .error (.guideFailure err)) := by
  obtain ⟨dp, hdeep⟩ := extractDeepestLayer_ok e layers hsub hne
  obtain ⟨_, hdpmem, hmax⟩ := extractDeepestLayer_inv e layers dp hdeep
  have hdpc : dp ∈ childrenNames e := hsub dp hdpmem
  have hnt : namedChildrenTo e dp true =
      .ok (e.modules.take (idxOf (childrenNames e) dp + 1)) := by
    rw [namedChildrenTo, if_pos hdpc]
    simp
  have hstnames : (e.modules.take (idxOf (childrenNames e) dp + 1)).map Prod.fst
      = (childrenNames e).take (idxOf (childrenNames e) dp + 1) := by
    simp [childrenNames, List.map_take]
  have hndst : ((childrenNames e).take (idxOf (childrenNames e) dp + 1)).Nodup :=
    List.Nodup.sublist (List.take_sublist _ _) hnd
  refine ⟨dp, hdeep, ?_, ?_⟩
  · intro hsucc
    obtain ⟨gdp, hgdp⟩ := hsucc dp hdpc
    have hchain : guideChain prop method allowEmpty
        (e.modules.take (idxOf (childrenNames e) dp + 1)) guide = .ok gdp := by
      rw [← takeTo_eq_take_children e dp hdpc]
      exact hgdp
    obtain ⟨gd, hgd⟩ := runGuides_ok_of_ok prop method allowEmpty _ guide [] gdp hchain
    obtain ⟨hpres, hval⟩ := runGuides_char prop method allowEmpty _ guide [] gd
      (by rw [hstnames]; exact hndst) hgd
    have hmemtake : ∀ l ∈ layers,
        l ∈ (e.modules.take (idxOf (childrenNames e) dp + 1)).map Prod.fst := by
      intro l hl
      rw [hstnames]
      exact idxOf_mem_take _ _ _ (hsub l hl) (Nat.lt_succ_of_le (hmax l hl))
    have hsome : ∀ l ∈ layers, (dictGet? gd l).isSome := by
      intro l hl
      obtain ⟨gn, hgn, _⟩ := hval l (hmemtake l hl)
      simp [hgn]
    obtain ⟨gs, hgs, hfg⟩ := getEach_of_forall_isSome gd layers hsome
    refine ⟨gs, ?_, forall₂_imp_of_mem ?_ hfg⟩
    · simp only [propagateGuideMLE, hdeep, hnt, hgd, hgs]
    · intro l gl hl hlg
      obtain ⟨gn, hgn, hcv⟩ := hval l (hmemtake l hl)
      rw [hgn] at hlg
      obtain rfl := Option.some.inj hlg
      rw [takeTo_take e.modules l (idxOf (childrenNames e) dp + 1) (hmemtake l hl)] at hcv
      exact hcv
  · intro err herr
    have hrg : runGuides prop method allowEmpty
        (e.modules.take (idxOf (childrenNames e) dp + 1)) guide [] =
          .error (.guideFailure err) :=
      runGuides_err prop method allowEmpty _ guide [] err herr
    simp only [propagateGuideMLE, hdeep, hnt, hrg]

/-- Claim C8 witness: a two-stage container with a collaborator that adds one
to the guide at each stage. -/
theorem claim8_witness :
    ∃ dp, extractDeepestLayer (MLE.mk [("a", fun x : Nat => some (x + 1)),
      ("b", fun x : Nat => some (x * 2))] [] ([] : List ((String × Nat) × Nat))) ["b"]
        = .ok dp ∧
      ((∀ l ∈ childrenNames (MLE.mk [("a", fun x : Nat => some (x + 1)),
          ("b", fun x : Nat => some (x * 2))] [] ([] : List ((String × Nat) × Nat))),
          ∃ gl, guideChain (fun _ g _ _ => .ok (g + 1)) "simple" false
            (takeTo l (MLE.mk [("a", fun x : Nat => some (x + 1)),
              ("b", fun x : Nat => some (x * 2))] []
              ([] : List ((String × Nat) × Nat))).modules) (0 : Nat) = .ok gl) →
        ∃ gs, propagateGuideMLE (fun _ g _ _ => .ok (g + 1))
            (MLE.mk [("a", fun x : Nat => some (x + 1)),
              ("b", fun x : Nat => some (x * 2))] [] ([] : List ((String × Nat) × Nat)))
            (0 : Nat) ["b"] "simple" false = .ok gs ∧
          List.Forall₂ (fun l gl =>
            guideChain (fun _ g _ _ => .ok (g + 1)) "simple" false
              (takeTo l (MLE.mk [("a", fun x : Nat => some (x + 1)),
                ("b", fun x : Nat => some (x * 2))] []
                ([] : List ((String × Nat) × Nat))).modules) (0 : Nat) = .ok gl) ["b"] gs)
      ∧ (∀ err,
          guideChain (fun _ g _ _ => .ok (g + 1)) "simple" false
            ((MLE.mk [("a", fun x : Nat => some (x + 1)),
              ("b", fun x : Nat => some (x * 2))] []
              ([] : List ((String × Nat) × Nat))).modules.take
              (idxOf (childrenNames (MLE.mk [("a", fun x : Nat => some (x + 1)),
                ("b", fun x : Nat => some (x * 2))] []
                ([] : List ((String × Nat) × Nat)))) dp + 1)) (0 : Nat) = .error err →
          propagateGuideMLE (fun _ g _ _ => .ok (g + 1))
            (MLE.mk [("a", fun x : Nat => some (x + 1)),
              ("b", fun x : Nat => some (x * 2))] [] ([] : List ((String × Nat) × Nat)))
            (0 : Nat) ["b"] "simple" false = .error (.guideFailure err)) :=
  claim8_propagate_guide (fun _ g _ _ => .ok (g + 1))
    (MLE.mk [("a", fun x : Nat => some (x + 1)), ("b", fun x : Nat => some (x * 2))] []
      ([] : List ((String × Nat) × Nat))) 0 ["b"] "simple" false
    (by decide) (by decide) (by decide)

/-- Claim C9: the samplers produce batches of batchSize consecutive indices
from the cyclic sequence over the dataset indices, the cycle position
continuing across batch boundaries; the infinite sampler with size 3 and
batch size 2 yields (0,1), (2,0), (1,2), (0,1) as its first four batches and
always has a next batch, while the finite sampler with size 3, two batches
and batch size 2 yields exactly (0,1), (2,0) and its len reports the number
of batches. -/
theorem claim9_cycle_batch_samplers :
    (∀ (s : InfiniteCycleBatchSampler) (k : Nat), 0 < s.size →
      s.batch k =
        some ((List.range s.batchSize).map (fun j => (k * s.batchSize + j) % s.size)))
    ∧ ((InfiniteCycleBatchSampler.mk 3 2).batch 0 = some [0, 1]
        ∧ (InfiniteCycleBatchSampler.mk 3 2).batch 1 = some [2, 0]
        ∧ (InfiniteCycleBatchSampler.mk 3 2).batch 2 = some [1, 2]
        ∧ (InfiniteCycleBatchSampler.mk 3 2).batch 3 = some [0, 1])
    ∧ (∀ (s : InfiniteCycleBatchSampler) (k : Nat), 0 < s.size → (s.batch k).isSome)
    ∧ (∀ (s : FiniteCycleBatchSampler), 0 < s.size →
        ∃ bs, s.batches = some bs ∧ bs.length = s.numBatches ∧
          ∀ i (h : i < bs.length), some (bs.get ⟨i, h⟩) = s.toInfinite.batch i)
    ∧ (FiniteCycleBatchSampler.mk 3 2 2).batches = some [[0, 1], [2, 0]]
    ∧ (FiniteCycleBatchSampler.mk 3 2 2).length = 2 := by
  have hbatch : ∀ (s : InfiniteCycleBatchSampler) (k : Nat), 0 < s.size →
      s.batch k =
        some ((List.range s.batchSize).map (fun j => (k * s.batchSize + j) % s.size)) := by
    intro s k hpos
    rw [InfiniteCycleBatchSampler.batch, icbsBatchFrom_formula s hpos k 0]
    simp
  refine ⟨hbatch, ⟨by decide, by decide, by decide, by decide⟩, ?_, ?_, by decide, rfl⟩
  · intro s k hpos
    rw [hbatch s k hpos]
    rfl
  · intro s hpos
    obtain ⟨bs, h1, h2, h3⟩ := collectBatches_spec s.toInfinite hpos s.numBatches 0
    refine ⟨bs, h1, h2, ?_⟩
    intro i h
    simpa using h3 i h

/-- Claim C9 witness: the general batch formula at size 3, batch size 2,
batch index 1 gives (2, 0). -/
theorem claim9_witness :
    (0 : Nat) < 3 ∧ (InfiniteCycleBatchSampler.mk 3 2).batch 1 =
      some ((List.range 2).map (fun j => (1 * 2 + j) % 3)) :=
  ⟨by decide, claim9_cycle_batch_samplers.1 (InfiniteCycleBatchSampler.mk 3 2) 1 (by decide)⟩

/-- Claim C10 counterexample: constructing the infinite sampler with size 0
succeeds and raises no error, refuting that a non-positive size is validated
and surfaced at construction. -/
theorem claim10_counterexample :
    icbsMake 0 2 = .ok (InfiniteCycleBatchSampler.mk 0 2) ∧
    ∀ err, icbsMake 0 2 ≠ .error err := by
  refine ⟨rfl, ?_⟩
  intro err h
  simp [icbsMake] at h

/-- Claim C10, amended: construction of the infinite sampler performs no
validation of the dataset size and always succeeds; with size 0 the failure
surfaces only when a batch of positive batch size is drawn. -/
theorem claim10_no_construction_validation :
    (∀ size batchSize : Nat, icbsMake size batchSize =
      .ok (InfiniteCycleBatchSampler.mk size batchSize))
    ∧ (∀ batchSize k : Nat, 0 < batchSize →
        (InfiniteCycleBatchSampler.mk 0 batchSize).batch k = none) := by
  refine ⟨fun _ _ => rfl, ?_⟩
  intro bs k hbs
  exact icbsBatchFrom_size_zero (InfiniteCycleBatchSampler.mk 0 bs) rfl hbs k 0

/-- Claim C10 witness: size 0 is accepted at construction and the first
batch draw fails. -/
theorem claim10_witness :
    (0 : Nat) < 2 ∧ icbsMake 0 2 = .ok (InfiniteCycleBatchSampler.mk 0 2) ∧
    (InfiniteCycleBatchSampler.mk 0 2).batch 0 = none :=
  ⟨by decide, claim10_no_construction_validation.1 0 2,
    claim10_no_construction_validation.2 2 0 (by decide)⟩

end Pystiche
